import Mathlib

/-!
Shallow embedding of the record utilities in
`src/template_code/utility_functions/fulcrum_utilities.py`
(class `FulcrumUtilities`), together with proofs about the claims of the
specification.  Python values that can occur inside a Fulcrum record are
modelled by the inductive type `PyVal`; dictionaries are modelled as
insertion-ordered association lists, matching CPython dict semantics.
-/

/-- A Python value as it occurs in a Fulcrum record: `None`, booleans,
integers, floats, strings, lists and dicts.  Floats carry the string
produced by Python's `repr` (which is also what `json.dumps` emits for
them); no floating-point arithmetic is modelled.  Dicts are
insertion-ordered association lists, as in CPython. -/
inductive PyVal where
  | none : PyVal
  | bool : Bool → PyVal
  | int : Int → PyVal
  | float : String → PyVal
  | str : String → PyVal
  | list : List PyVal → PyVal
  | dict : List (String × PyVal) → PyVal

mutual

/-- Structural boolean equality on `PyVal` (Python `==` restricted to the
values a Fulcrum record can hold). -/
def PyVal.beq : PyVal → PyVal → Bool
  | PyVal.none, PyVal.none => true
  | PyVal.bool a, PyVal.bool b => a == b
  | PyVal.int a, PyVal.int b => a == b
  | PyVal.float a, PyVal.float b => a == b
  | PyVal.str a, PyVal.str b => a == b
  | PyVal.list a, PyVal.list b => beqValList a b
  | PyVal.dict a, PyVal.dict b => beqEntryList a b
  | _, _ => false

/-- Elementwise equality of two `PyVal` lists. -/
def beqValList : List PyVal → List PyVal → Bool
  | [], [] => true
  | a :: as, b :: bs => PyVal.beq a b && beqValList as bs
  | _, _ => false

/-- Elementwise equality of two key/value entry lists. -/
def beqEntryList : List (String × PyVal) → List (String × PyVal) → Bool
  | [], [] => true
  | (k, v) :: as, (k', v') :: bs => k == k' && PyVal.beq v v' && beqEntryList as bs
  | _, _ => false

end

mutual

/-- `PyVal.beq` decides propositional equality. -/
theorem PyVal.beq_iff : ∀ (a b : PyVal), (PyVal.beq a b = true) ↔ a = b
  | PyVal.none, b => by cases b <;> simp [PyVal.beq]
  | PyVal.bool x, b => by cases b <;> simp [PyVal.beq]
  | PyVal.int x, b => by cases b <;> simp [PyVal.beq]
  | PyVal.float x, b => by cases b <;> simp [PyVal.beq]
  | PyVal.str x, b => by cases b <;> simp [PyVal.beq]
  | PyVal.list l, b => by
      cases b <;> simp [PyVal.beq]
      case list l₂ => exact beqValList_iff l l₂
  | PyVal.dict d, b => by
      cases b <;> simp [PyVal.beq]
      case dict d₂ => exact beqEntryList_iff d d₂

/-- `beqValList` decides propositional equality. -/
theorem beqValList_iff : ∀ (l₁ l₂ : List PyVal), (beqValList l₁ l₂ = true) ↔ l₁ = l₂
  | [], [] => by simp [beqValList]
  | [], _ :: _ => by simp [beqValList]
  | _ :: _, [] => by simp [beqValList]
  | a :: as, b :: bs => by
      simp only [beqValList, Bool.and_eq_true, List.cons.injEq]
      rw [PyVal.beq_iff a b, beqValList_iff as bs]

/-- `beqEntryList` decides propositional equality. -/
theorem beqEntryList_iff : ∀ (l₁ l₂ : List (String × PyVal)),
    (beqEntryList l₁ l₂ = true) ↔ l₁ = l₂
  | [], [] => by simp [beqEntryList]
  | [], _ :: _ => by simp [beqEntryList]
  | _ :: _, [] => by simp [beqEntryList]
  | (k, v) :: as, (k', v') :: bs => by
      simp only [beqEntryList, Bool.and_eq_true, List.cons.injEq, Prod.mk.injEq]
      rw [PyVal.beq_iff v v', beqEntryList_iff as bs, beq_iff_eq, and_assoc]

end

instance : DecidableEq PyVal := fun a b => decidable_of_iff _ (PyVal.beq_iff a b)

/-- A Fulcrum record: a Python dict with string keys, modelled as an
insertion-ordered association list. -/
abbrev Record := List (String × PyVal)

/-- Python truthiness (`bool(v)`): `None`, `False`, zero, the empty string
and empty containers are falsy; everything else is truthy.  A float is
falsy exactly when it is zero, whose `repr` is `0.0` or `-0.0`. -/
def truthy : PyVal → Bool
  | PyVal.none => false
  | PyVal.bool b => b
  | PyVal.int n => decide (n ≠ 0)
  | PyVal.float r => decide (r ≠ "0.0") && decide (r ≠ "-0.0")
  | PyVal.str s => decide (s ≠ "")
  | PyVal.list l => !l.isEmpty
  | PyVal.dict d => !d.isEmpty

/-- First-match lookup in an association list (CPython dicts have unique
keys, so first-match agrees with dict lookup). -/
def lookupField (r : Record) (k : String) : Option PyVal :=
  match r with
  | [] => Option.none
  | (k', v) :: rest => if k' = k then some v else lookupField rest k

/-- Python `record.get(key)`: the stored value, or `None` when the key is
absent. -/
def pyGet (r : Record) (k : String) : PyVal :=
  (lookupField r k).getD PyVal.none

/-- Lexicographic comparison of character lists by code point — exactly
Python's `<` on strings. -/
def charListLtB : List Char → List Char → Bool
  | [], [] => false
  | [], _ :: _ => true
  | _ :: _, [] => false
  | a :: as, b :: bs =>
      if a.toNat < b.toNat then true
      else if b.toNat < a.toNat then false
      else charListLtB as bs

/-- Python's `s < t` on strings. -/
def pyStrLt (a b : String) : Bool := charListLtB a.toList b.toList

/-- Python's `s <= t` on strings. -/
def pyStrLe (a b : String) : Bool := !pyStrLt b a

/-- Python `record.get('_updated_at', '')` as used by `merge_records`.
The field, when present, is assumed to hold a string (a non-string value
would make the source's `>` comparison raise `TypeError`, which is outside
the model); when absent the default `''` is returned. -/
def getUpdated (r : Record) : String :=
  match lookupField r "_updated_at" with
  | some (PyVal.str s) => s
  | _ => ""

/-- The body of `merge_records`' recency check: keep `new` only when
`new_updated > current_updated` under Python's raw string comparison
(lexicographic by code point), i.e. ties and smaller values keep `cur`. -/
def keepRecent (cur new : Record) : Record :=
  if pyStrLt (getUpdated cur) (getUpdated new) then new else cur

/-- One assignment `merged[key] = ...` on the insertion-ordered dict
`merged`: an existing key is updated in place (applying the recency
check), a new key is appended at the end — CPython dict semantics. -/
def mergeStep (m : List (PyVal × Record)) (k : PyVal) (r : Record) :
    List (PyVal × Record) :=
  match m with
  | [] => [(k, r)]
  | (k', r') :: rest =>
      if k' = k then (k', keepRecent r' r) :: rest
      else (k', r') :: mergeStep rest k r

/-- The loop body of `merge_records`: `key = record.get(merge_key)`;
records with a falsy key are skipped (`if not key: continue`), the rest
are inserted/merged into `merged`. -/
def mergeFoldStep (merge_key : String) (m : List (PyVal × Record))
    (record : Record) : List (PyVal × Record) :=
  if truthy (pyGet record merge_key) then mergeStep m (pyGet record merge_key) record
  else m

/-- `FulcrumUtilities.merge_records` (fulcrum_utilities.py, lines
193-221): fold the records into the `merged` dict and return
`list(merged.values())`. -/
def merge_records (records : List Record) (merge_key : String := "id") :
    List Record :=
  (records.foldl (mergeFoldStep merge_key) []).map Prod.snd

/-- Lookup in the `merged` dict of `merge_records` (PyVal keys). -/
def findKey (m : List (PyVal × Record)) (k : PyVal) : Option Record :=
  match m with
  | [] => Option.none
  | (k', r) :: rest => if k' = k then some r else findKey rest k

/-- The numeric value of a decimal digit character, `none` otherwise. -/
def digitVal (c : Char) : Option Nat :=
  if c.isDigit then some (c.toNat - 48) else Option.none

/-- Two decimal digit characters as a number. -/
def digits2 (a b : Char) : Option Nat := do
  let x ← digitVal a
  let y ← digitVal b
  some (x * 10 + y)

/-- Four decimal digit characters as a number. -/
def digits4 (a b c d : Char) : Option Nat := do
  let x ← digits2 a b
  let y ← digits2 c d
  some (x * 100 + y)

/-- Gregorian leap-year test, as Python's `datetime` uses it. -/
def isLeapYear (y : Nat) : Bool :=
  y % 4 == 0 && (y % 100 != 0 || y % 400 == 0)

/-- Days in month `m` of year `y` (Python's `calendar`/`datetime` rule). -/
def daysInMonth (y m : Nat) : Nat :=
  if m = 2 then (if isLeapYear y then 29 else 28)
  else if m = 4 ∨ m = 6 ∨ m = 9 ∨ m = 11 then 30
  else 31

/-- Days from 1970-01-01 to the civil date `y-m-d` (the standard
era/year-of-era computation; exact for every valid Gregorian date with
`y ≥ 1`, which is `datetime`'s `MINYEAR`). -/
def daysFromCivil (y m d : Nat) : Int :=
  let y' : Int := (y : Int) - (if m ≤ 2 then 1 else 0)
  let era : Int := y' / 400
  let yoe : Int := y' - era * 400
  let mp : Int := ((m : Int) + 9) % 12
  let doy : Int := (153 * mp + 2) / 5 + (d : Int) - 1
  let doe : Int := yoe * 365 + yoe / 4 - yoe / 100 + doy
  era * 146097 + doe - 719468

/-- Seconds since 1970-01-01T00:00:00 UTC of the instant
`y-m-d h:mi:s` at UTC offset `off` seconds.  A datetime without an
offset (naive) is mapped with `off = 0`; only the `some`/`none` outcome
of parsing, never a naive value, feeds any comparison in this file. -/
def epochOf (y m d h mi s : Nat) (off : Int) : Int :=
  daysFromCivil y m d * 86400 + (h : Int) * 3600 + (mi : Int) * 60 + (s : Int) - off

/-- Models the time part accepted by Python's `datetime.fromisoformat`
(3.10 grammar): `HH`, `HH:MM` or `HH:MM:SS`; returns the components and
the unconsumed remainder (the offset part).  Fractional seconds are
outside the model (no claim exercises them). -/
def parseTimeChars : List Char → Option (Nat × Nat × Nat × List Char)
  | h1 :: h2 :: rest => do
      let h ← digits2 h1 h2
      if 23 < h then Option.none else
      match rest with
      | ':' :: m1 :: m2 :: rest2 => do
          let mi ← digits2 m1 m2
          if 59 < mi then Option.none else
          match rest2 with
          | ':' :: s1 :: s2 :: rest3 => do
              let s ← digits2 s1 s2
              if 59 < s then Option.none else some (h, mi, s, rest3)
          | _ => some (h, mi, 0, rest2)
      | _ => some (h, 0, 0, rest)
  | _ => Option.none

/-- Models the UTC offset accepted by `datetime.fromisoformat` (3.10
grammar): empty (a naive datetime, mapped to offset 0 here) or
`±HH:MM` with `HH ≤ 23`, `MM ≤ 59`; the result is the offset in
seconds.  Offsets with a seconds part are outside the model. -/
def parseOffsetChars : List Char → Option Int
  | [] => some 0
  | [sign, h1, h2, ':', m1, m2] => do
      let h ← digits2 h1 h2
      let mi ← digits2 m1 m2
      if 23 < h ∨ 59 < mi then Option.none
      else if sign = '+' then some ((h * 3600 + mi * 60 : Nat) : Int)
      else if sign = '-' then some (-((h * 3600 + mi * 60 : Nat) : Int))
      else Option.none
  | _ => Option.none

/-- Models Python's `datetime.fromisoformat` (3.10 grammar) on the
character list: `YYYY-MM-DD`, optionally followed by any single
separator character, a time `HH[:MM[:SS]]` and an offset `±HH:MM`.
The date is validated against real month lengths and `MINYEAR = 1`,
as `datetime` does; the result is the instant as seconds since the
epoch (naive datetimes mapped as UTC). -/
def parseISOChars : List Char → Option Int
  | y1 :: y2 :: y3 :: y4 :: '-' :: m1 :: m2 :: '-' :: d1 :: d2 :: rest => do
      let y ← digits4 y1 y2 y3 y4
      let m ← digits2 m1 m2
      let d ← digits2 d1 d2
      if y < 1 then Option.none else
      if m < 1 ∨ 12 < m then Option.none else
      if d < 1 ∨ daysInMonth y m < d then Option.none else
      match rest with
      | [] => some (epochOf y m d 0 0 0 0)
      | _sep :: timeChars => do
          let (h, mi, s, rest2) ← parseTimeChars timeChars
          let off ← parseOffsetChars rest2
          some (epochOf y m d h mi s off)
  | _ => Option.none

/-- Models the standard library's `datetime.fromisoformat` as called by
`parse_fulcrum_date`. -/
def fromisoformat (s : String) : Option Int :=
  parseISOChars s.toList

/-- Models Python's `float(s)` on plain decimal literals:
`[+|-] digits [. digits]` or `[+|-] . digits` (also `digits.`), giving
an exact rational.  Exponent forms, `inf`/`nan`, underscores and
surrounding whitespace are outside the model; no claim exercises
them. -/
def pyFloatChars (cs : List Char) : Option Rat :=
  let (sgn, cs') : Rat × List Char :=
    match cs with
    | '+' :: r => (1, r)
    | '-' :: r => (-1, r)
    | _ => (1, cs)
  let ip := cs'.takeWhile Char.isDigit
  let rest := cs'.dropWhile Char.isDigit
  let ipVal : Rat := ((ip.foldl (fun a c => a * 10 + (c.toNat - 48)) 0 : Nat) : Rat)
  match rest with
  | [] => if ip.isEmpty then Option.none else some (sgn * ipVal)
  | '.' :: rest2 =>
      let fp := rest2.takeWhile Char.isDigit
      let rest3 := rest2.dropWhile Char.isDigit
      if !rest3.isEmpty then Option.none
      else if ip.isEmpty && fp.isEmpty then Option.none
      else
        let fpVal : Rat := ((fp.foldl (fun a c => a * 10 + (c.toNat - 48)) 0 : Nat) : Rat)
        some (sgn * (ipVal + fpVal / ((10 : Rat) ^ fp.length)))
  | _ => Option.none

/-- Models the standard library's `float` conversion as called by
`parse_fulcrum_date`. -/
def pyFloat (s : String) : Option Rat :=
  pyFloatChars s.toList

/-- Python's `date_string.replace('Z', '+00:00')`: every occurrence of
the character `Z` is replaced by `+00:00`. -/
def replaceZ (s : String) : String :=
  String.mk ((s.toList.map
    (fun c => if c = 'Z' then ['+', '0', '0', ':', '0', '0'] else [c])).flatten)

/-- `FulcrumUtilities.parse_fulcrum_date` (fulcrum_utilities.py, lines
92-115).  The result pairs the parsed value (seconds since the epoch;
`datetime` objects and `fromtimestamp` results are both represented by
their numeric timestamp) with a flag recording whether
`logger.warning` was called.  A falsy (empty) input returns `None`
before any parsing and before the warning branch; otherwise
`fromisoformat` is tried on the `Z`-replaced string, then
`float(date_string) / 1000` as a timestamp, and only when both fail is
the warning logged and `None` returned.  `fromtimestamp` range errors
beyond the caught `(ValueError, OSError)` are outside the model. -/
def parse_fulcrum_date (date_string : String) : Option Rat × Bool :=
  if date_string = "" then (Option.none, false)
  else
    match fromisoformat (replaceZ date_string) with
    | some t => (some ((t : Int) : Rat), false)
    | Option.none =>
        match pyFloat date_string with
        | some x => (some (x / 1000), false)
        | Option.none => (Option.none, true)

/-- Errors a call in this module can raise or (per the spec) is claimed to
raise.  `nameError` is Python's `NameError`, raised by
`flatten_nested_dict`'s unqualified recursive call; `valueError` is
Python's `ValueError`, raised by `range()` with a zero step.
`depthExceeded` and `invalidConfiguration` are modelled from the spec:
the spec names these errors, but no code in the source ever raises
them. -/
inductive PyError where
  | nameError : PyError
  | valueError : PyError
  | depthExceeded : PyError
  | invalidConfiguration : PyError
deriving DecidableEq

instance {ε α : Type} [DecidableEq ε] [DecidableEq α] : DecidableEq (Except ε α) :=
  fun a b =>
    match a, b with
    | Except.ok x, Except.ok y => decidable_of_iff (x = y) (by simp)
    | Except.error x, Except.error y => decidable_of_iff (x = y) (by simp)
    | Except.ok _, Except.error _ => isFalse (by simp)
    | Except.error _, Except.ok _ => isFalse (by simp)

/-- The lowercase-hex character of a digit `n < 16`. -/
def hexDigitChar (n : Nat) : Char :=
  if n < 10 then Char.ofNat (48 + n) else Char.ofNat (87 + n)

/-- `json.dumps` escaping of one character (default `ensure_ascii=True`):
quote, backslash and the named control characters get two-character
escapes, other control characters and all non-ASCII characters become
`\uXXXX`.  Code points at or above `0x10000` (surrogate pairs in
CPython's output) are outside the model; no claim exercises them. -/
def jsonEscapeChar (c : Char) : List Char :=
  if c = '"' then ['\\', '"']
  else if c = '\\' then ['\\', '\\']
  else if c = '\n' then ['\\', 'n']
  else if c = '\t' then ['\\', 't']
  else if c = '\r' then ['\\', 'r']
  else if c.toNat = 8 then ['\\', 'b']
  else if c.toNat = 12 then ['\\', 'f']
  else if c.toNat < 32 ∨ 126 < c.toNat then
    ['\\', 'u', hexDigitChar (c.toNat / 4096 % 16), hexDigitChar (c.toNat / 256 % 16),
     hexDigitChar (c.toNat / 16 % 16), hexDigitChar (c.toNat % 16)]
  else [c]

/-- A JSON string literal: the escaped characters between quotes. -/
def jsonString (s : String) : String :=
  String.mk ('"' :: (s.toList.map jsonEscapeChar).flatten ++ ['"'])

/-- Comparison of rendered dict entries by their (raw) key, which is how
`json.dumps(..., sort_keys=True)` orders the items of a dict (Python
string comparison is lexicographic by code point, `pyStrLe`). -/
def pairKeyLe (a b : String × String) : Prop := pyStrLe a.1 b.1 = true

instance : DecidableRel pairKeyLe := fun a b =>
  inferInstanceAs (Decidable (pyStrLe a.1 b.1 = true))

/-- Sorting the rendered entries of a dict by key. -/
def sortPairsByKey (l : List (String × String)) : List (String × String) :=
  List.insertionSort pairKeyLe l

/-- Joining rendered dict entries with `json.dumps`' default item and
key separators `", "` and `": "`. -/
def renderEntries : List (String × String) → String
  | [] => ""
  | [(k, v)] => jsonString k ++ ": " ++ v
  | (k, v) :: rest => jsonString k ++ ": " ++ v ++ ", " ++ renderEntries rest

mutual

/-- `json.dumps(v, sort_keys=True)` on a Python value (default
separators, default `ensure_ascii=True`).  Integers and floats render
as Python prints them — `1` and `1.0` are distinct texts.  A dict's
items are ordered by key; since an item's rendering is independent of
its position, rendering each entry and then sorting the rendered pairs
by their raw key produces exactly the string `json.dumps` produces
(dict keys are unique, so no tie-breaking ever applies).  The
`default=str` argument of `calculate_record_hash` is only consulted for
objects `json` cannot serialize, which `PyVal` has none of. -/
def jsonSerialize : PyVal → String
  | PyVal.none => "null"
  | PyVal.bool true => "true"
  | PyVal.bool false => "false"
  | PyVal.int n => toString n
  | PyVal.float r => r
  | PyVal.str s => jsonString s
  | PyVal.list l => "[" ++ jsonSerializeList l ++ "]"
  | PyVal.dict d => "\x7b" ++ renderEntries (sortPairsByKey (jsonSerializeEntries d)) ++ "\x7d"

/-- The comma-joined renderings of a JSON array's elements. -/
def jsonSerializeList : List PyVal → String
  | [] => ""
  | [v] => jsonSerialize v
  | v :: rest => jsonSerialize v ++ ", " ++ jsonSerializeList rest

/-- Each dict entry as its raw key paired with its rendered value. -/
def jsonSerializeEntries : List (String × PyVal) → List (String × String)
  | [] => []
  | (k, v) :: rest => (k, jsonSerialize v) :: jsonSerializeEntries rest

end

/-- `FulcrumUtilities.calculate_record_hash` (fulcrum_utilities.py,
lines 178-190): the MD5 hex digest of
`json.dumps(record, sort_keys=True, default=str)`.  The digest is a
function of that canonical string, and MD5 is used here purely as a
change detector; the model represents the digest by the canonical
string itself, so two digests are equal exactly when the canonical
serializations are equal (MD5 collisions are not modelled). -/
def calculate_record_hash (record : Record) : String :=
  jsonSerialize (PyVal.dict record)

/-- Whether a value is a Python dict. -/
def PyVal.isDict : PyVal → Bool
  | PyVal.dict _ => true
  | _ => false

/-- Whether a value is a scalar leaf (not a list and not a dict). -/
def isScalar : PyVal → Bool
  | PyVal.list _ => false
  | PyVal.dict _ => false
  | _ => true

/-- The inner loop of `flatten_nested_dict` over a list value
(fulcrum_utilities.py, lines 166-172): each element gets the indexed key
`f"{new_key}_{i}"` (the underscore is hard-coded, independent of `sep`);
a dict element triggers the recursive call, which raises `NameError`
because the call `flatten_nested_dict(...)` is unqualified inside the
staticmethod and no such module-level name exists; any other element —
including a nested list — is appended unchanged. -/
def flattenListItems (new_key : String) (i : Nat) :
    List PyVal → Except PyError (List (String × PyVal))
  | [] => Except.ok []
  | PyVal.dict _ :: _ => Except.error PyError.nameError
  | item :: rest =>
      match flattenListItems new_key (i + 1) rest with
      | Except.ok tail => Except.ok ((new_key ++ "_" ++ toString i, item) :: tail)
      | Except.error e => Except.error e

/-- The handling of one value inside `flatten_nested_dict`'s loop: a
dict raises the `NameError` (see `flattenListItems` for why), a list is
expanded with indexed keys, anything else is appended under `new_key`. -/
def flattenHere (new_key : String) : PyVal → Except PyError (List (String × PyVal))
  | PyVal.dict _ => Except.error PyError.nameError
  | PyVal.list l => flattenListItems new_key 0 l
  | v' => Except.ok [(new_key, v')]

/-- The main loop of `flatten_nested_dict` (fulcrum_utilities.py, lines
161-174), producing the `items` list: each entry's value is handled by
`flattenHere` under the entry's `new_key`, and the collected items are
concatenated in entry order; the first raised error aborts the call, as
in Python. -/
def flattenItems (parent_key sep : String) :
    List (String × PyVal) → Except PyError (List (String × PyVal))
  | [] => Except.ok []
  | (k, v) :: rest =>
      match flattenHere (if parent_key = "" then k else parent_key ++ sep ++ k) v,
          flattenItems parent_key sep rest with
      | Except.ok here, Except.ok tail => Except.ok (here ++ tail)
      | Except.error e, _ => Except.error e
      | Except.ok _, Except.error e => Except.error e

/-- One insertion into a dict under construction: an existing key is
overwritten in place, a new key is appended — `dict(items)` semantics. -/
def dictInsert (m : List (String × PyVal)) (kv : String × PyVal) :
    List (String × PyVal) :=
  match m with
  | [] => [kv]
  | (k', v') :: rest =>
      if k' = kv.1 then (k', kv.2) :: rest
      else (k', v') :: dictInsert rest kv

/-- Python's `dict(items)` on a list of pairs. -/
def listToDict (items : List (String × PyVal)) : List (String × PyVal) :=
  items.foldl dictInsert []

/-- `FulcrumUtilities.flatten_nested_dict` (fulcrum_utilities.py, lines
149-175) as the source actually behaves: `dict(items)` of the collected
items, or the `NameError` raised by the unqualified recursive call as
soon as any dict value is encountered. -/
def flatten_nested_dict (data : Record) (parent_key : String := "")
    (sep : String := "_") : Except PyError Record :=
  (flattenItems parent_key sep data).map listToDict

mutual

/-- Modelled from the spec: the flattening `flatten_nested_dict`
evidently intends (its docstring: "Flatten nested dictionary
structure"), i.e. the source with the recursive call resolved to
`FulcrumUtilities.flatten_nested_dict`.  A dict value recurses under
`new_key`; a list element that is a dict recurses under the indexed
key; any other list element is appended unchanged, exactly as in the
source's loop. -/
def flattenIntendedEntries (parent_key sep : String) :
    List (String × PyVal) → List (String × PyVal)
  | [] => []
  | (k, v) :: rest =>
      let new_key := if parent_key = "" then k else parent_key ++ sep ++ k
      (match v with
       | PyVal.dict d => flattenIntendedEntries new_key sep d
       | PyVal.list l => flattenIntendedList new_key sep 0 l
       | v' => [(new_key, v')]) ++ flattenIntendedEntries parent_key sep rest

/-- Modelled from the spec: the intended handling of a list value (see
`flattenIntendedEntries`). -/
def flattenIntendedList (new_key sep : String) (i : Nat) :
    List PyVal → List (String × PyVal)
  | [] => []
  | PyVal.dict d :: rest =>
      flattenIntendedEntries (new_key ++ "_" ++ toString i) sep d ++
        flattenIntendedList new_key sep (i + 1) rest
  | item :: rest => (new_key ++ "_" ++ toString i, item) :: flattenIntendedList new_key sep (i + 1) rest

end

/-- Modelled from the spec: `flatten_nested_dict` with the broken
recursive call repaired (see `flattenIntendedEntries`). -/
def flatten_intended (data : Record) (parent_key : String := "")
    (sep : String := "_") : Record :=
  listToDict (flattenIntendedEntries parent_key sep data)

mutual

/-- Nesting depth of a value: containers add one level, scalars are
depth 0. -/
def pyDepth : PyVal → Nat
  | PyVal.dict kvs => 1 + pyDepthEntries kvs
  | PyVal.list l => 1 + pyDepthList l
  | _ => 0

/-- Maximum depth over a dict's values. -/
def pyDepthEntries : List (String × PyVal) → Nat
  | [] => 0
  | kv :: rest => max (pyDepth kv.2) (pyDepthEntries rest)

/-- Maximum depth over a list's elements. -/
def pyDepthList : List PyVal → Nat
  | [] => 0
  | v :: rest => max (pyDepth v) (pyDepthList rest)

end

/-- The mapping chain `{"k": {"k": ... 0 ...}}` of depth `n`. -/
def deepDict : Nat → PyVal
  | 0 => PyVal.int 0
  | n + 1 => PyVal.dict [("k", deepDict n)]

/-- Chunking a list into groups: for `ps ≥ 1` this is exactly the loop
`for i in range(0, len(records), page_size): pages.append(records[i:i + page_size])`,
since the slice at `i` is `take ps (drop i records)` and successive `i`
advance by `ps`.  (`chunks 0` is never used by `paginate_records`: the
zero step is rejected before this function is reached.) -/
def chunks (ps : Nat) : List Record → List (List Record)
  | [] => []
  | x :: xs => (x :: xs).take ps :: chunks ps (xs.drop (ps - 1))
termination_by l => l.length
decreasing_by
  simp only [List.length_cons, List.length_drop]
  omega

/-- `FulcrumUtilities.paginate_records` (fulcrum_utilities.py, lines
294-308): `range(0, len(records), page_size)` raises `ValueError` when
the step is zero; a negative step makes the range empty, so the loop
appends nothing and the empty page list is returned; a positive step
slices the records into consecutive chunks. -/
def paginate_records (records : List Record) (page_size : Int := 100) :
    Except PyError (List (List Record)) :=
  if page_size = 0 then Except.error PyError.valueError
  else if page_size < 0 then Except.ok []
  else Except.ok (chunks page_size.toNat records)

/-! ### Order-theoretic facts about Python string comparison -/

theorem charListLtB_irrefl : ∀ a : List Char, charListLtB a a = false
  | [] => rfl
  | c :: cs => by
      simp only [charListLtB, Nat.lt_irrefl, if_false]
      exact charListLtB_irrefl cs

theorem charListLtB_trans : ∀ a b c : List Char,
    charListLtB a b = true → charListLtB b c = true → charListLtB a c = true
  | [], [], _ :: _, _, _ => rfl
  | [], _ :: _, _ :: _, _, _ => rfl
  | a :: as, b :: bs, c :: cs, h₁, h₂ => by
      simp only [charListLtB] at h₁ h₂ ⊢
      by_cases hab : a.toNat < b.toNat <;> by_cases hba : b.toNat < a.toNat <;>
        simp only [hab, hba, if_true, if_false, ite_true, ite_false] at h₁ <;>
      by_cases hbc : b.toNat < c.toNat <;> by_cases hcb : c.toNat < b.toNat <;>
        simp only [hbc, hcb, if_true, if_false, ite_true, ite_false] at h₂ <;>
      by_cases hac : a.toNat < c.toNat <;> by_cases hca : c.toNat < a.toNat <;>
        simp only [hac, hca, if_true, if_false, ite_true, ite_false] <;>
        first
          | rfl
          | omega
          | simp at h₁
          | simp at h₂
          | exact charListLtB_trans as bs cs h₁ h₂

theorem charEqOfToNatEq {a b : Char} (h : a.toNat = b.toNat) : a = b :=
  Char.ext (UInt32.toNat.inj h)

theorem charListLtB_eq_of_not : ∀ a b : List Char,
    charListLtB a b = false → charListLtB b a = false → a = b
  | [], [], _, _ => rfl
  | [], _ :: _, h₁, _ => absurd h₁ (by simp [charListLtB])
  | _ :: _, [], _, h₂ => absurd h₂ (by simp [charListLtB])
  | a :: as, b :: bs, h₁, h₂ => by
      simp only [charListLtB] at h₁ h₂
      by_cases hab : a.toNat < b.toNat
      · rw [if_pos hab] at h₁
        cases h₁
      · by_cases hba : b.toNat < a.toNat
        · rw [if_pos hba] at h₂
          cases h₂
        · rw [if_neg hab, if_neg hba] at h₁
          rw [if_neg hba, if_neg hab] at h₂
          have hc : a = b := charEqOfToNatEq (by omega)
          have ht : as = bs := charListLtB_eq_of_not as bs h₁ h₂
          rw [hc, ht]

theorem stringEqOfToListEq {s t : String} (h : s.toList = t.toList) : s = t := by
  cases s
  cases t
  simp only [String.toList] at h
  exact congrArg String.mk h

theorem pyStrLt_irrefl (a : String) : pyStrLt a a = false :=
  charListLtB_irrefl a.toList

theorem pyStrLt_trans {a b c : String} (h₁ : pyStrLt a b = true)
    (h₂ : pyStrLt b c = true) : pyStrLt a c = true :=
  charListLtB_trans a.toList b.toList c.toList h₁ h₂

theorem pyStrEq_of_not_lt {a b : String} (h₁ : pyStrLt a b = false)
    (h₂ : pyStrLt b a = false) : a = b :=
  stringEqOfToListEq (charListLtB_eq_of_not a.toList b.toList h₁ h₂)

theorem pyStrLt_asymm {a b : String} (h : pyStrLt a b = true) :
    pyStrLt b a = false := by
  cases hba : pyStrLt b a
  · rfl
  · have := pyStrLt_trans h hba
    rw [pyStrLt_irrefl a] at this
    cases this

theorem pyStrLe_total (a b : String) : pyStrLe a b = true ∨ pyStrLe b a = true := by
  unfold pyStrLe
  cases hab : pyStrLt a b
  · right
    simp [hab]
  · left
    simp [pyStrLt_asymm hab]

theorem pyStrLe_trans {a b c : String} (h₁ : pyStrLe a b = true)
    (h₂ : pyStrLe b c = true) : pyStrLe a c = true := by
  unfold pyStrLe at h₁ h₂ ⊢
  simp only [Bool.not_eq_true'] at h₁ h₂ ⊢
  cases hca : pyStrLt c a
  · rfl
  · exfalso
    cases hbc : pyStrLt b c
    · have hbceq : b = c := pyStrEq_of_not_lt hbc h₂
      rw [hbceq, hca] at h₁
      simp at h₁
    · have hba := pyStrLt_trans hbc hca
      rw [h₁] at hba
      simp at hba

theorem pyStrLe_antisymm {a b : String} (h₁ : pyStrLe a b = true)
    (h₂ : pyStrLe b a = true) : a = b := by
  unfold pyStrLe at h₁ h₂
  simp only [Bool.not_eq_true'] at h₁ h₂
  exact pyStrEq_of_not_lt h₂ h₁

/-! ### Structure of `merge_records` -/

theorem findKey_mergeStep_self (m : List (PyVal × Record)) (k : PyVal) (r : Record) :
    findKey (mergeStep m k r) k =
      some (match findKey m k with
            | Option.none => r
            | some cur => keepRecent cur r) := by
  induction m with
  | nil => simp [mergeStep, findKey]
  | cons hd tl ih =>
      obtain ⟨k', r'⟩ := hd
      by_cases hk : k' = k
      · subst hk
        simp [mergeStep, findKey]
      · simp only [mergeStep, if_neg hk, findKey, ih]

theorem findKey_mergeStep_other (m : List (PyVal × Record)) (k k' : PyVal)
    (r : Record) (h : k' ≠ k) :
    findKey (mergeStep m k r) k' = findKey m k' := by
  induction m with
  | nil => simp [mergeStep, findKey, Ne.symm h]
  | cons hd tl ih =>
      obtain ⟨k₀, r₀⟩ := hd
      by_cases hk : k₀ = k
      · subst hk
        simp only [mergeStep, if_pos rfl, findKey]
        rw [if_neg (Ne.symm h), if_neg (Ne.symm h)]
      · simp only [mergeStep, if_neg hk, findKey, ih]

theorem snd_mem_of_findKey {m : List (PyVal × Record)} {k : PyVal} {r : Record}
    (h : findKey m k = some r) : r ∈ m.map Prod.snd := by
  induction m with
  | nil => simp [findKey] at h
  | cons hd tl ih =>
      obtain ⟨k₀, r₀⟩ := hd
      by_cases hk : k₀ = k
      · rw [findKey, if_pos hk] at h
        obtain rfl : r₀ = r := by injection h
        simp
      · rw [findKey, if_neg hk] at h
        simpa using Or.inr (ih h)

theorem mergeStep_inv {key : String} {m : List (PyVal × Record)}
    (hm : ∀ kv ∈ m, kv.1 = pyGet kv.2 key ∧ truthy kv.1 = true)
    {k : PyVal} {r : Record} (hk : k = pyGet r key) (ht : truthy k = true) :
    ∀ kv ∈ mergeStep m k r, kv.1 = pyGet kv.2 key ∧ truthy kv.1 = true := by
  induction m with
  | nil =>
      intro kv hkv
      simp only [mergeStep, List.mem_singleton] at hkv
      subst hkv
      exact ⟨hk, ht⟩
  | cons hd tl ih =>
      obtain ⟨k₀, r₀⟩ := hd
      intro kv hkv
      by_cases hk₀ : k₀ = k
      · subst hk₀
        rw [mergeStep, if_pos rfl] at hkv
        rcases List.mem_cons.mp hkv with hkv | hkv
        · subst hkv
          unfold keepRecent
          split
          · exact ⟨hk, ht⟩
          · exact hm (k₀, r₀) (by simp)
        · exact hm kv (List.mem_cons_of_mem _ hkv)
      · rw [mergeStep, if_neg hk₀] at hkv
        rcases List.mem_cons.mp hkv with hkv | hkv
        · subst hkv
          exact hm (k₀, r₀) (by simp)
        · exact ih (fun kv' hkv' => hm kv' (List.mem_cons_of_mem _ hkv')) kv hkv

theorem foldl_merge_inv (key : String) (records : List Record) :
    ∀ (m : List (PyVal × Record)),
      (∀ kv ∈ m, kv.1 = pyGet kv.2 key ∧ truthy kv.1 = true) →
      ∀ kv ∈ records.foldl (mergeFoldStep key) m,
        kv.1 = pyGet kv.2 key ∧ truthy kv.1 = true := by
  induction records with
  | nil => intro m hm; exact hm
  | cons r rs ih =>
      intro m hm
      simp only [List.foldl_cons]
      apply ih
      unfold mergeFoldStep
      split
      · exact mergeStep_inv hm rfl (by assumption)
      · exact hm

theorem merge_records_mem_truthy {records : List Record} {key : String}
    {w : Record} (hw : w ∈ merge_records records key) :
    truthy (pyGet w key) = true := by
  unfold merge_records at hw
  rcases List.mem_map.mp hw with ⟨kv, hkv, hsnd⟩
  have := foldl_merge_inv key records [] (by simp) kv hkv
  rw [← hsnd, ← this.1]
  exact this.2

theorem findKey_foldl (key : String) (k : PyVal) (hk : truthy k = true)
    (records : List Record) :
    ∀ (m : List (PyVal × Record)),
      findKey (records.foldl (mergeFoldStep key) m) k =
        (records.filter (fun r => decide (pyGet r key = k))).foldl
          (fun acc r =>
            match acc with
            | Option.none => some r
            | some cur => some (keepRecent cur r)) (findKey m k) := by
  induction records with
  | nil => intro m; rfl
  | cons r rs ih =>
      intro m
      simp only [List.foldl_cons, List.filter_cons]
      by_cases hr : pyGet r key = k
      · rw [if_pos (by simp [hr])]
        rw [ih (mergeFoldStep key m r)]
        simp only [List.foldl_cons]
        congr 1
        unfold mergeFoldStep
        rw [hr, if_pos hk, findKey_mergeStep_self]
        cases findKey m k <;> rfl
      · rw [if_neg (by simp [hr])]
        rw [ih (mergeFoldStep key m r)]
        congr 1
        unfold mergeFoldStep
        split
        · exact findKey_mergeStep_other m (pyGet r key) k r (fun he => hr he.symm)
        · rfl

theorem optionFold_some (rs : List Record) :
    ∀ (a : Record),
      rs.foldl
        (fun acc r =>
          match acc with
          | Option.none => some r
          | some cur => some (keepRecent cur r)) (some a) =
        some (rs.foldl keepRecent a) := by
  induction rs with
  | nil => intro a; rfl
  | cons r rs ih =>
      intro a
      simp only [List.foldl_cons]
      exact ih (keepRecent a r)

theorem foldl_keepRecent_spec (rs : List Record) :
    ∀ (a : Record),
      ∃ l₁ l₂,
        a :: rs = l₁ ++ (rs.foldl keepRecent a) :: l₂ ∧
        (∀ r ∈ a :: rs,
          pyStrLt (getUpdated (rs.foldl keepRecent a)) (getUpdated r) = false) ∧
        (∀ r ∈ l₁,
          pyStrLt (getUpdated r) (getUpdated (rs.foldl keepRecent a)) = true) := by
  induction rs with
  | nil =>
      intro a
      refine ⟨[], [], rfl, ?_, by simp⟩
      intro r hr
      rw [List.mem_singleton] at hr
      subst hr
      exact pyStrLt_irrefl _
  | cons b t ih =>
      intro a
      simp only [List.foldl_cons]
      by_cases hab : pyStrLt (getUpdated a) (getUpdated b) = true
      · -- keepRecent a b = b
        have hkr : keepRecent a b = b := by unfold keepRecent; rw [if_pos hab]
        obtain ⟨l₁, l₂, hdec, hmax, hlt⟩ := ih (keepRecent a b)
        rw [hkr] at hdec hmax hlt
        rw [hkr]
        refine ⟨a :: l₁, l₂, ?_, ?_, ?_⟩
        · simpa using congrArg (List.cons a) hdec
        · intro r hr
          rcases List.mem_cons.mp hr with rfl | hr
          · -- r = a
            have hwb := hmax b (by simp)
            cases hwa : pyStrLt (getUpdated (t.foldl keepRecent b)) (getUpdated r)
            · rfl
            · have := pyStrLt_trans hwa hab
              rw [hwb] at this
              cases this
          · exact hmax r hr
        · intro r hr
          rcases List.mem_cons.mp hr with rfl | hr
          · -- r = a : show lt (upd a) (upd w)
            have hwb := hmax b (by simp)
            cases hbw : pyStrLt (getUpdated b) (getUpdated (t.foldl keepRecent b))
            · have heq : getUpdated b = getUpdated (t.foldl keepRecent b) :=
                pyStrEq_of_not_lt hbw hwb
              rw [← heq]
              exact hab
            · exact pyStrLt_trans hab hbw
          · exact hlt r hr
      · -- keepRecent a b = a
        have hab' : pyStrLt (getUpdated a) (getUpdated b) = false := by
          cases h : pyStrLt (getUpdated a) (getUpdated b)
          · rfl
          · exact absurd h hab
        have hkr : keepRecent a b = a := by unfold keepRecent; rw [if_neg (by simp [hab'])]
        obtain ⟨l₁, l₂, hdec, hmax, hlt⟩ := ih (keepRecent a b)
        rw [hkr] at hdec hmax hlt
        rw [hkr]
        cases l₁ with
        | nil =>
            simp only [List.nil_append] at hdec
            injection hdec with hw ht
            refine ⟨[], b :: l₂, ?_, ?_, by simp⟩
            · simp only [List.nil_append]
              rw [← hw, ← ht]
            · intro r hr
              rcases List.mem_cons.mp hr with rfl | hr
              · rw [← hw]; exact pyStrLt_irrefl _
              · rcases List.mem_cons.mp hr with rfl | hr
                · rw [← hw]; exact hab'
                · exact hmax r (List.mem_cons_of_mem _ hr)
        | cons p l₁' =>
            simp only [List.cons_append] at hdec
            injection hdec with hp htail
            have hpa : p = a := hp.symm
            refine ⟨a :: b :: l₁', l₂, ?_, ?_, ?_⟩
            · simp only [List.cons_append]
              rw [← htail]
            · intro r hr
              rcases List.mem_cons.mp hr with rfl | hr
              · exact hmax r (by simp)
              · rcases List.mem_cons.mp hr with rfl | hr
                · -- r = b : suppose lt w b; also lt a w (hlt at p = a); then lt a b, contra
                  cases hwb : pyStrLt (getUpdated (t.foldl keepRecent a)) (getUpdated r)
                  · rfl
                  · have haw := hlt p (by simp)
                    rw [hpa] at haw
                    have := pyStrLt_trans haw hwb
                    rw [hab'] at this
                    cases this
                · exact hmax r (List.mem_cons_of_mem _ hr)
            · intro r hr
              rcases List.mem_cons.mp hr with rfl | hr
              · have haw := hlt p (by simp)
                rw [hpa] at haw
                exact haw
              · rcases List.mem_cons.mp hr with rfl | hr
                · -- r = b : lt b w from (lt b a or upd b = upd a) and lt a w
                  have haw := hlt p (by simp)
                  rw [hpa] at haw
                  cases hba : pyStrLt (getUpdated r) (getUpdated a)
                  · have heq : getUpdated r = getUpdated a := pyStrEq_of_not_lt hba hab'
                    rw [heq]
                    exact haw
                  · exact pyStrLt_trans hba haw
                · exact hlt r (by simp [hr])

/-! ### Structure of `paginate_records` -/

theorem chunks_nil (ps : Nat) : chunks ps [] = [] := by
  simp [chunks]

theorem chunks_cons {ps : Nat} (hps : 1 ≤ ps) (x : Record) (xs : List Record) :
    chunks ps (x :: xs) =
      (x :: xs).take ps :: chunks ps ((x :: xs).drop ps) := by
  obtain ⟨k, rfl⟩ : ∃ k, ps = k + 1 := ⟨ps - 1, by omega⟩
  rw [chunks]
  simp [List.drop_succ_cons]

theorem chunks_eq_nil_iff {ps : Nat} (hps : 1 ≤ ps) (l : List Record) :
    chunks ps l = [] ↔ l = [] := by
  cases l with
  | nil => simp [chunks_nil]
  | cons x xs => simp [chunks_cons hps]

theorem chunks_join_aux {ps : Nat} (hps : 1 ≤ ps) :
    ∀ (n : Nat) (l : List Record), l.length ≤ n → (chunks ps l).flatten = l
  | _, [], _ => by simp [chunks_nil]
  | 0, x :: xs, h => by simp at h
  | Nat.succ n, x :: xs, h => by
      rw [chunks_cons hps]
      have hlen : ((x :: xs).drop ps).length ≤ n := by
        simp only [List.length_drop, List.length_cons]
        simp only [List.length_cons] at h
        omega
      simp only [List.flatten_cons, chunks_join_aux hps n _ hlen,
        List.take_append_drop]

theorem chunks_join {ps : Nat} (hps : 1 ≤ ps) (l : List Record) :
    (chunks ps l).flatten = l :=
  chunks_join_aux hps l.length l le_rfl

theorem chunks_mem_aux {ps : Nat} (hps : 1 ≤ ps) :
    ∀ (n : Nat) (l : List Record), l.length ≤ n →
      ∀ p ∈ chunks ps l, 1 ≤ p.length ∧ p.length ≤ ps
  | _, [], _ => by simp [chunks_nil]
  | 0, x :: xs, h => by simp at h
  | Nat.succ n, x :: xs, h => by
      rw [chunks_cons hps]
      intro p hp
      rcases List.mem_cons.mp hp with rfl | hp
      · constructor
        · simp only [List.length_take, List.length_cons]
          omega
        · simp only [List.length_take]
          omega
      · have hlen : ((x :: xs).drop ps).length ≤ n := by
          simp only [List.length_drop, List.length_cons]
          simp only [List.length_cons] at h
          omega
        exact chunks_mem_aux hps n _ hlen p hp

theorem chunks_dropLast_aux {ps : Nat} (hps : 1 ≤ ps) :
    ∀ (n : Nat) (l : List Record), l.length ≤ n →
      ∀ p ∈ (chunks ps l).dropLast, p.length = ps
  | _, [], _ => by simp [chunks_nil]
  | 0, x :: xs, h => by simp at h
  | Nat.succ n, x :: xs, h => by
      rw [chunks_cons hps]
      by_cases hrest : (x :: xs).drop ps = []
      · rw [hrest, chunks_nil]
        simp
      · have hne : chunks ps ((x :: xs).drop ps) ≠ [] := by
          rw [ne_eq, chunks_eq_nil_iff hps]
          exact hrest
        rw [List.dropLast_cons_of_ne_nil hne]
        intro p hp
        rcases List.mem_cons.mp hp with rfl | hp
        · have hgt : ps < (x :: xs).length := by
            by_contra hc
            exact hrest (List.drop_eq_nil_of_le (by omega))
          simp only [List.length_take]
          omega
        · have hlen : ((x :: xs).drop ps).length ≤ n := by
            simp only [List.length_drop, List.length_cons]
            simp only [List.length_cons] at h
            omega
          exact chunks_dropLast_aux hps n _ hlen p hp

/-! ### Structure of `flatten_nested_dict` -/

theorem flattenListItems_error_name :
    ∀ (l : List PyVal) (nk : String) (i : Nat) (e : PyError),
      flattenListItems nk i l = Except.error e → e = PyError.nameError := by
  intro l
  induction l with
  | nil => intro nk i e h; simp [flattenListItems] at h
  | cons item rest ih =>
      intro nk i e h
      cases item <;> simp only [flattenListItems] at h
      case dict d =>
        injection h with h'
        exact h'.symm
      all_goals
        cases hres : flattenListItems nk (i + 1) rest with
        | ok tail =>
            rw [hres] at h
            exact Except.noConfusion h
        | error e' =>
            rw [hres] at h
            have he : e' = e := by injection h
            exact he ▸ ih nk (i + 1) e' hres

theorem flattenHere_error101 :
    ∀ (nk : String) (v : PyVal) (e : PyError),
      flattenHere nk v = Except.error e → e = PyError.nameError := by
  intro nk v e h
  cases v <;> simp only [flattenHere] at h
  case dict d =>
    injection h with h'
    exact h'.symm
  case list l => exact flattenListItems_error_name l nk 0 e h
  all_goals exact Except.noConfusion h

theorem flattenItems_error_name :
    ∀ (data : List (String × PyVal)) (parent_key sep : String) (e : PyError),
      flattenItems parent_key sep data = Except.error e → e = PyError.nameError := by
  intro data
  induction data with
  | nil => intro p s e h; exact Except.noConfusion h
  | cons hd rest ih =>
      obtain ⟨k, v⟩ := hd
      intro p s e h
      simp only [flattenItems] at h
      cases hh : flattenHere (if p = "" then k else p ++ s ++ k) v with
      | ok here =>
          cases ht : flattenItems p s rest with
          | ok tail =>
              rw [hh, ht] at h
              exact Except.noConfusion h
          | error e' =>
              rw [hh, ht] at h
              have he : e' = e := by injection h
              exact he ▸ ih p s e' ht
      | error e' =>
          rw [hh] at h
          have he : e' = e := by injection h
          exact he ▸ flattenHere_error101 _ v e' hh

theorem flattenItems_error_of_dict :
    ∀ (data : List (String × PyVal)) (parent_key sep : String),
      (∃ kv ∈ data, kv.2.isDict = true) →
      flattenItems parent_key sep data = Except.error PyError.nameError := by
  intro data
  induction data with
  | nil => rintro p s ⟨kv, hkv, _⟩; simp at hkv
  | cons hd rest ih =>
      obtain ⟨k, v⟩ := hd
      rintro p s ⟨kv, hkv, hd⟩
      rcases List.mem_cons.mp hkv with rfl | hmem
      · cases v
        case dict d =>
          cases ht : flattenItems p s rest <;>
            simp only [flattenItems, flattenHere, ht]
        all_goals exact absurd hd (by simp [PyVal.isDict])
      · have htail := ih p s ⟨kv, hmem, hd⟩
        simp only [flattenItems]
        cases hh : flattenHere (if p = "" then k else p ++ s ++ k) v with
        | ok here => rw [htail]
        | error e' =>
            have := flattenHere_error101 _ v e' hh
            rw [this]

theorem flattenListItems_ok_values :
    ∀ (l : List PyVal) (nk : String) (i : Nat) (out : List (String × PyVal)),
      flattenListItems nk i l = Except.ok out →
      ∀ kv ∈ out, kv.2.isDict = false := by
  intro l
  induction l with
  | nil =>
      intro nk i out h kv hkv
      obtain rfl : ([] : List (String × PyVal)) = out := by injection h
      simp at hkv
  | cons item rest ih =>
      intro nk i out h kv hkv
      cases item <;> simp only [flattenListItems] at h
      case dict d => exact Except.noConfusion h
      all_goals
        cases hres : flattenListItems nk (i + 1) rest with
        | error e => rw [hres] at h; exact Except.noConfusion h
        | ok tail =>
            rw [hres] at h
            injection h with h'
            subst h'
            rcases List.mem_cons.mp hkv with rfl | hkv'
            · rfl
            · exact ih nk (i + 1) tail hres kv hkv'

theorem flattenHere_ok_values :
    ∀ (nk : String) (v : PyVal) (out : List (String × PyVal)),
      flattenHere nk v = Except.ok out → ∀ kv ∈ out, kv.2.isDict = false := by
  intro nk v out h kv hkv
  cases v <;> simp only [flattenHere] at h
  case dict d => exact Except.noConfusion h
  case list l => exact flattenListItems_ok_values l nk 0 out h kv hkv
  all_goals
    injection h with h'
    subst h'
    rcases List.mem_cons.mp hkv with rfl | hkv'
    · rfl
    · simp at hkv'

theorem flattenItems_ok_values :
    ∀ (data : List (String × PyVal)) (parent_key sep : String)
      (out : List (String × PyVal)),
      flattenItems parent_key sep data = Except.ok out →
      ∀ kv ∈ out, kv.2.isDict = false := by
  intro data
  induction data with
  | nil =>
      intro p s out h kv hkv
      obtain rfl : ([] : List (String × PyVal)) = out := by injection h
      simp at hkv
  | cons hd rest ih =>
      obtain ⟨k, v⟩ := hd
      intro p s out h kv hkv
      simp only [flattenItems] at h
      cases hh : flattenHere (if p = "" then k else p ++ s ++ k) v with
      | error e => rw [hh] at h; exact Except.noConfusion h
      | ok here =>
          cases ht : flattenItems p s rest with
          | error e => rw [hh, ht] at h; exact Except.noConfusion h
          | ok tail =>
              rw [hh, ht] at h
              injection h with h'
              subst h'
              rcases List.mem_append.mp hkv with hkv' | hkv'
              · exact flattenHere_ok_values _ v here hh kv hkv'
              · exact ih p s tail ht kv hkv'

theorem mem_dictInsert :
    ∀ (m : List (String × PyVal)) (kv x : String × PyVal),
      x ∈ dictInsert m kv → x ∈ m ∨ x.2 = kv.2 := by
  intro m
  induction m with
  | nil =>
      intro kv x hx
      simp only [dictInsert, List.mem_singleton] at hx
      subst hx
      exact Or.inr rfl
  | cons hd tl ih =>
      obtain ⟨k', v'⟩ := hd
      intro kv x hx
      by_cases hk : k' = kv.1
      · rw [dictInsert, if_pos hk] at hx
        rcases List.mem_cons.mp hx with rfl | hx'
        · exact Or.inr rfl
        · exact Or.inl (List.mem_cons_of_mem _ hx')
      · rw [dictInsert, if_neg hk] at hx
        rcases List.mem_cons.mp hx with rfl | hx'
        · exact Or.inl (List.mem_cons_self _ _)
        · rcases ih kv x hx' with h | h
          · exact Or.inl (List.mem_cons_of_mem _ h)
          · exact Or.inr h

theorem foldl_dictInsert_values :
    ∀ (items m : List (String × PyVal)),
      (∀ kv ∈ m, kv.2.isDict = false) →
      (∀ kv ∈ items, kv.2.isDict = false) →
      ∀ kv ∈ items.foldl dictInsert m, kv.2.isDict = false := by
  intro items
  induction items with
  | nil => intro m hm _ kv hkv; exact hm kv hkv
  | cons it rest ih =>
      intro m hm hitems kv hkv
      simp only [List.foldl_cons] at hkv
      refine ih (dictInsert m it) ?_ (fun x hx => hitems x (List.mem_cons_of_mem _ hx)) kv hkv
      intro x hx
      rcases mem_dictInsert m it x hx with h | h
      · exact hm x h
      · rw [h]
        exact hitems it (List.mem_cons_self _ _)

/-! ### Structure of `calculate_record_hash` -/

instance : IsTotal (String × String) pairKeyLe :=
  ⟨fun a b => pyStrLe_total a.1 b.1⟩

instance : IsTrans (String × String) pairKeyLe :=
  ⟨fun _ _ _ hab hbc => pyStrLe_trans hab hbc⟩

theorem sortedPerm_eq :
    ∀ (l₁ l₂ : List (String × String)), l₁.Perm l₂ →
      l₁.Sorted pairKeyLe → l₂.Sorted pairKeyLe →
      (l₁.map Prod.fst).Nodup → l₁ = l₂ := by
  intro l₁
  induction l₁ with
  | nil =>
      intro l₂ hp _ _ _
      exact (hp.symm.eq_nil).symm ▸ rfl
  | cons a t ih =>
      intro l₂ hp hs₁ hs₂ hnd
      cases l₂ with
      | nil => exact absurd hp.eq_nil (by simp)
      | cons b t₂ =>
          obtain ⟨hs₁a, hs₁t⟩ := List.sorted_cons.mp hs₁
          obtain ⟨hs₂b, hs₂t⟩ := List.sorted_cons.mp hs₂
          have hab : a = b := by
            by_contra hne
            have ha : a ∈ b :: t₂ := hp.mem_iff.mp (List.mem_cons_self _ _)
            have hb : b ∈ a :: t := hp.mem_iff.mpr (List.mem_cons_self _ _)
            have ha' : a ∈ t₂ := by
              rcases List.mem_cons.mp ha with h | h
              · exact absurd h hne
              · exact h
            have hb' : b ∈ t := by
              rcases List.mem_cons.mp hb with h | h
              · exact absurd h.symm hne
              · exact h
            have h₁ : pairKeyLe a b := hs₁a b hb'
            have h₂ : pairKeyLe b a := hs₂b a ha'
            have hkey : a.1 = b.1 := pyStrLe_antisymm h₁ h₂
            have : a.1 ∈ t.map Prod.fst := by
              rw [hkey]
              exact List.mem_map_of_mem Prod.fst hb'
            simp only [List.map_cons, List.nodup_cons] at hnd
            exact hnd.1 this
          subst hab
          have htail := ih t₂ hp.cons_inv hs₁t hs₂t
            (by simp only [List.map_cons, List.nodup_cons] at hnd; exact hnd.2)
          rw [htail]

theorem jsonSerializeEntries_eq_map (d : List (String × PyVal)) :
    jsonSerializeEntries d = d.map (fun kv => (kv.1, jsonSerialize kv.2)) := by
  induction d with
  | nil => rfl
  | cons hd tl ih =>
      obtain ⟨k, v⟩ := hd
      simp only [jsonSerializeEntries, List.map_cons, ih]

/-- The canonical serializations of two records that are permutations of
each other with duplicate-free keys coincide: `sort_keys=True` puts both
item lists into the same sorted order. -/
theorem calculate_record_hash_perm (r₁ r₂ : Record) (hperm : r₁.Perm r₂)
    (hnodup : (r₁.map Prod.fst).Nodup) :
    calculate_record_hash r₁ = calculate_record_hash r₂ := by
  unfold calculate_record_hash
  have hEperm : (jsonSerializeEntries r₁).Perm (jsonSerializeEntries r₂) := by
    rw [jsonSerializeEntries_eq_map, jsonSerializeEntries_eq_map]
    exact hperm.map _
  have hfst : (jsonSerializeEntries r₁).map Prod.fst = r₁.map Prod.fst := by
    rw [jsonSerializeEntries_eq_map, List.map_map]
    rfl
  have hsorteq : sortPairsByKey (jsonSerializeEntries r₁) =
      sortPairsByKey (jsonSerializeEntries r₂) := by
    apply sortedPerm_eq
    · exact ((List.perm_insertionSort pairKeyLe _).trans hEperm).trans
        (List.perm_insertionSort pairKeyLe _).symm
    · exact List.sorted_insertionSort pairKeyLe _
    · exact List.sorted_insertionSort pairKeyLe _
    · have hp : (sortPairsByKey (jsonSerializeEntries r₁)).Perm
          (jsonSerializeEntries r₁) :=
        List.perm_insertionSort pairKeyLe (jsonSerializeEntries r₁)
      have hnd : ((jsonSerializeEntries r₁).map Prod.fst).Nodup := by
        rw [hfst]
        exact hnodup
      exact ((hp.map Prod.fst).nodup_iff).mpr hnd
  simp only [jsonSerialize, hsorteq]

theorem mem_of_findKey :
    ∀ {m : List (PyVal × Record)} {k : PyVal} {r : Record},
      findKey m k = some r → (k, r) ∈ m := by
  intro m
  induction m with
  | nil => intro k r h; simp [findKey] at h
  | cons hd tl ih =>
      obtain ⟨k₀, r₀⟩ := hd
      intro k r h
      by_cases hk : k₀ = k
      · rw [findKey, if_pos hk] at h
        obtain rfl : r₀ = r := by injection h
        subst hk
        exact List.mem_cons_self _ _
      · rw [findKey, if_neg hk] at h
        exact List.mem_cons_of_mem _ (ih h)

/-! ### The claims -/

/-- C1 (amended): within each identity group, `merge_records` keeps the
record whose `_updated_at` is maximal under Python's raw string
comparison — not under parsed-timestamp comparison — and when several
records of the group tie on that string, the **first** record in input
order survives (the source only replaces the kept record on a strictly
greater string).  Stated as: the surviving record of a group is a
member of the group that no group member strictly exceeds, and every
group member strictly before it is strictly below it. -/
theorem C1_merge_keeps_first_max_raw_string
    (records : List Record) (key : String) (r₀ : Record) (rs : List Record)
    (hfilter : records.filter
        (fun r => decide (pyGet r key = pyGet r₀ key)) = r₀ :: rs)
    (htruthy : truthy (pyGet r₀ key) = true) :
    ∃ w l₁ l₂,
      w ∈ merge_records records key ∧
      r₀ :: rs = l₁ ++ w :: l₂ ∧
      (∀ r ∈ r₀ :: rs, pyStrLt (getUpdated w) (getUpdated r) = false) ∧
      (∀ r ∈ l₁, pyStrLt (getUpdated r) (getUpdated w) = true) := by
  have hproj := findKey_foldl key (pyGet r₀ key) htruthy records []
  rw [hfilter] at hproj
  simp only [List.foldl_cons, findKey] at hproj
  rw [optionFold_some] at hproj
  obtain ⟨l₁, l₂, hdec, hmax, hlt⟩ := foldl_keepRecent_spec rs r₀
  exact ⟨rs.foldl keepRecent r₀, l₁, l₂, snd_mem_of_findKey hproj, hdec, hmax, hlt⟩

/-- C1 (counterexample): the claim as stated is false on the code in
both parts.  (a) Two records of the same group with byte-identical
(hence equal when parsed) `_updated_at` values: `merge_records` returns
the **first** one (`v = 1`), while the claim requires the last
(`v = 2`).  (b) Mixed formats: an ISO value parsing to epoch second
1704067200 and a millisecond string parsing to the much later epoch
second 100000000000; raw string comparison puts the ISO value on top
(`"1..." < "2..."`), so `merge_records` keeps the ISO record although
the millisecond record's parsed timestamp is strictly greater. -/
theorem C1_counterexample :
    merge_records
        [[("id", PyVal.str "1"), ("_updated_at", PyVal.str "2024-01-01T00:00:00Z"),
          ("v", PyVal.int 1)],
         [("id", PyVal.str "1"), ("_updated_at", PyVal.str "2024-01-01T00:00:00Z"),
          ("v", PyVal.int 2)]] "id" =
      [[("id", PyVal.str "1"), ("_updated_at", PyVal.str "2024-01-01T00:00:00Z"),
        ("v", PyVal.int 1)]] ∧
    ([[("id", PyVal.str "1"), ("_updated_at", PyVal.str "2024-01-01T00:00:00Z"),
       ("v", PyVal.int 1)]] : List Record) ≠
      [[("id", PyVal.str "1"), ("_updated_at", PyVal.str "2024-01-01T00:00:00Z"),
        ("v", PyVal.int 2)]] ∧
    merge_records
        [[("id", PyVal.str "2"), ("_updated_at", PyVal.str "2024-01-01T00:00:00Z")],
         [("id", PyVal.str "2"), ("_updated_at", PyVal.str "100000000000000")]] "id" =
      [[("id", PyVal.str "2"), ("_updated_at", PyVal.str "2024-01-01T00:00:00Z")]] ∧
    parse_fulcrum_date "2024-01-01T00:00:00Z" =
      (some ((1704067200 : Int) : Rat), false) ∧
    parse_fulcrum_date "100000000000000" = (some (100000000000 : Rat), false) ∧
    ((1704067200 : Int) : Rat) < (100000000000 : Rat) := by
  refine ⟨by decide, by decide, by decide, by decide, ?_, by norm_num⟩
  have h : parse_fulcrum_date "100000000000000" =
      (some ((1 * (((100000000000000 : Nat) : Rat))) / 1000), false) := rfl
  rw [h]
  simp only [Prod.mk.injEq, Option.some.injEq]
  norm_num

/-- C1 (witness): the amended theorem applied to a concrete two-record
group. -/
theorem C1_witness :
    ∃ w l₁ l₂,
      w ∈ merge_records
          [[("id", PyVal.str "1"), ("_updated_at", PyVal.str "2024-01-01T00:00:00Z")],
           [("id", PyVal.str "1"), ("_updated_at", PyVal.str "2024-02-01T00:00:00Z")]] "id" ∧
      [[("id", PyVal.str "1"), ("_updated_at", PyVal.str "2024-01-01T00:00:00Z")],
       [("id", PyVal.str "1"), ("_updated_at", PyVal.str "2024-02-01T00:00:00Z")]] =
        l₁ ++ w :: l₂ ∧
      (∀ r ∈ [[("id", PyVal.str "1"), ("_updated_at", PyVal.str "2024-01-01T00:00:00Z")],
              [("id", PyVal.str "1"), ("_updated_at", PyVal.str "2024-02-01T00:00:00Z")]],
        pyStrLt (getUpdated w) (getUpdated r) = false) ∧
      (∀ r ∈ l₁, pyStrLt (getUpdated r) (getUpdated w) = true) :=
  C1_merge_keeps_first_max_raw_string
    [[("id", PyVal.str "1"), ("_updated_at", PyVal.str "2024-01-01T00:00:00Z")],
     [("id", PyVal.str "1"), ("_updated_at", PyVal.str "2024-02-01T00:00:00Z")]] "id"
    [("id", PyVal.str "1"), ("_updated_at", PyVal.str "2024-01-01T00:00:00Z")]
    [[("id", PyVal.str "1"), ("_updated_at", PyVal.str "2024-02-01T00:00:00Z")]]
    (by decide) (by decide)

/-- C2 (amended): the record hash is invariant under reordering of the
record's keys (for the duplicate-free keys a Python dict guarantees),
and the string `"1"` does not hash identically to the number `1`; but
equivalent numeric representations are *not* identified — see the
counterexample. -/
theorem C2_hash_key_order_invariant_no_cross_type :
    (∀ r₁ r₂ : Record, r₁.Perm r₂ → (r₁.map Prod.fst).Nodup →
      calculate_record_hash r₁ = calculate_record_hash r₂) ∧
    calculate_record_hash [("a", PyVal.str "1")] ≠
      calculate_record_hash [("a", PyVal.int 1)] :=
  ⟨calculate_record_hash_perm, by decide⟩

/-- C2 (counterexample): the integer `1` and the float `1.0` carry the
same numeric value, yet `json.dumps` serializes them as `1` and `1.0`,
so the two records hash differently — refuting "any equivalent numeric
representation produces an identical digest". -/
theorem C2_counterexample :
    calculate_record_hash [("a", PyVal.int 1)] ≠
      calculate_record_hash [("a", PyVal.float "1.0")] := by decide

/-- C2 (witness): key-order invariance at a concrete two-field record. -/
theorem C2_witness :
    calculate_record_hash [("a", PyVal.int 1), ("b", PyVal.int 2)] =
      calculate_record_hash [("b", PyVal.int 2), ("a", PyVal.int 1)] :=
  C2_hash_key_order_invariant_no_cross_type.1
    [("a", PyVal.int 1), ("b", PyVal.int 2)]
    [("b", PyVal.int 2), ("a", PyVal.int 1)] (by decide) (by decide)

/-- Every dict chain has its claimed depth: `deepDict n` is `n` levels
of nested mappings. -/
theorem pyDepth_deepDict : ∀ n : Nat, pyDepth (deepDict n) = n := by
  intro n
  induction n with
  | zero => rfl
  | succ k ih =>
      simp only [deepDict, pyDepth, pyDepthEntries, ih, Nat.max_zero]
      omega

/-- C3 (amended): `flatten_nested_dict` has no depth guard and no
`DepthExceeded` error; any input mapping containing a nested mapping
value — in particular the top of every pure-mapping chain deeper than
32 — fails immediately with Python's `NameError` (from the unqualified
recursive call).  It terminates rather than hangs, and being pure it
mutates no previously produced output. -/
theorem C3_flatten_fails_nameError_on_nested_dict
    (data : Record) (parent_key sep : String)
    (h : ∃ kv ∈ data, kv.2.isDict = true) :
    flatten_nested_dict data parent_key sep = Except.error PyError.nameError := by
  unfold flatten_nested_dict
  rw [flattenItems_error_of_dict data parent_key sep h]
  rfl

/-- C3 (counterexample): a mapping of nesting depth 33 (> the claimed
`maxDepth` default of 32).  `flatten_nested_dict` on its entries fails
with `NameError`, which is not the claimed named error
`DepthExceeded` — no such error exists anywhere in the source. -/
theorem C3_counterexample :
    pyDepth (PyVal.dict [("k", deepDict 32)]) = 33 ∧
    flatten_nested_dict [("k", deepDict 32)] "" "_" =
      Except.error PyError.nameError ∧
    (Except.error PyError.nameError : Except PyError Record) ≠
      Except.error PyError.depthExceeded := by
  refine ⟨?_, by rfl, by decide⟩
  exact pyDepth_deepDict 33

/-- C3 (witness): the amended theorem applied to a two-level mapping. -/
theorem C3_witness :
    flatten_nested_dict [("a", PyVal.dict [("b", PyVal.int 1)])] "" "_" =
      Except.error PyError.nameError :=
  C3_flatten_fails_nameError_on_nested_dict
    [("a", PyVal.dict [("b", PyVal.int 1)])] "" "_"
    ⟨("a", PyVal.dict [("b", PyVal.int 1)]), by decide, rfl⟩

/-- C4: as the spec states it, flatten should turn `{"a": {"b": 1,
"c": 2}}` into `{"a_b": 1, "a_c": 2}` and `{"a": [1, 2, 3]}` into
`{"a_0": 1, "a_1": 2, "a_2": 3}`.  The source delivers the list
example, but on any nested mapping it raises `NameError`: the recursive
call on line 165/170 is the bare name `flatten_nested_dict`, which is
undefined at call time inside the staticmethod (it would have to be
`FulcrumUtilities.flatten_nested_dict`).  The repaired recursion
(`flatten_intended`) produces exactly the claimed result, confirming
the claim describes the evident intent and the code has a slip. -/
theorem C4_flatten_behaviour :
    flatten_nested_dict
        [("a", PyVal.dict [("b", PyVal.int 1), ("c", PyVal.int 2)])] "" "_" =
      Except.error PyError.nameError ∧
    flatten_intended
        [("a", PyVal.dict [("b", PyVal.int 1), ("c", PyVal.int 2)])] "" "_" =
      [("a_b", PyVal.int 1), ("a_c", PyVal.int 2)] ∧
    flatten_nested_dict
        [("a", PyVal.list [PyVal.int 1, PyVal.int 2, PyVal.int 3])] "" "_" =
      Except.ok [("a_0", PyVal.int 1), ("a_1", PyVal.int 2), ("a_2", PyVal.int 3)] := by
  refine ⟨by decide, ?_, by decide⟩
  simp [flatten_intended, flattenIntendedEntries, flattenIntendedList, listToDict,
    dictInsert]

/-- C5 (amended): on every input on which `flatten_nested_dict`
succeeds, no value of the output is a mapping; but the output may still
contain sequences — a sequence nested directly inside a sequence is
passed through whole (see the counterexample) — and scalar leaves pass
through unchanged. -/
theorem C5_flatten_ok_values_not_dict
    (data : Record) (parent_key sep : String) (out : Record)
    (h : flatten_nested_dict data parent_key sep = Except.ok out) :
    ∀ kv ∈ out, kv.2.isDict = false := by
  unfold flatten_nested_dict at h
  cases hitems : flattenItems parent_key sep data with
  | error e =>
      rw [hitems] at h
      exact Except.noConfusion h
  | ok items =>
      rw [hitems] at h
      have hout : listToDict items = out := by injection h
      subst hout
      unfold listToDict
      exact foldl_dictInsert_values items [] (by simp)
        (flattenItems_ok_values data parent_key sep items hitems)

/-- C5 (counterexample): `{"a": [[1]]}` flattens successfully, and the
inner sequence `[1]` appears in the output unflattened as the value of
`"a_0"` — the output is not scalar-only, refuting the claim. -/
theorem C5_counterexample :
    flatten_nested_dict [("a", PyVal.list [PyVal.list [PyVal.int 1]])] "" "_" =
      Except.ok [("a_0", PyVal.list [PyVal.int 1])] ∧
    isScalar (PyVal.list [PyVal.int 1]) = false :=
  ⟨by decide, rfl⟩

/-- C5 (witness): the amended theorem applied to a concrete successful
flatten. -/
theorem C5_witness : (PyVal.int 1).isDict = false :=
  C5_flatten_ok_values_not_dict [("a", PyVal.int 1)] "" "_"
    [("a", PyVal.int 1)] (by decide) ("a", PyVal.int 1) (by decide)

/-- C6 (amended): `paginate_records` does not validate `page_size`: a
zero `page_size` makes `range()` raise `ValueError` (not a named
`InvalidConfiguration`), and every negative `page_size` makes the range
empty, so the call silently returns an empty page list instead of
failing. -/
theorem C6_paginate_bad_page_size :
    (∀ records : List Record,
      paginate_records records 0 = Except.error PyError.valueError) ∧
    (∀ (records : List Record) (ps : Int), ps < 0 →
      paginate_records records ps = Except.ok []) := by
  constructor
  · intro records
    rfl
  · intro records ps hps
    unfold paginate_records
    rw [if_neg (by omega), if_pos hps]

/-- C6 (counterexample): at `page_size = -1` (which is `< 1`) the call
does not fail at all — it silently returns the empty page list; at
`page_size = 0` it fails with `ValueError`, not with the claimed named
error `InvalidConfiguration` (which no code in the source raises). -/
theorem C6_counterexample :
    paginate_records [[("id", PyVal.str "1")]] (-1) = Except.ok [] ∧
    paginate_records [[("id", PyVal.str "1")]] 0 =
      Except.error PyError.valueError ∧
    (Except.error PyError.valueError : Except PyError (List (List Record))) ≠
      Except.error PyError.invalidConfiguration := by
  refine ⟨by decide, by decide, by decide⟩

/-- C6 (witness): the amended theorem applied at a concrete negative
page size. -/
theorem C6_witness :
    paginate_records [[("a", PyVal.int 1)]] (-1) = Except.ok [] :=
  C6_paginate_bad_page_size.2 [[("a", PyVal.int 1)]] (-1) (by norm_num)

/-- C7: for every `page_size ≥ 1`, `paginate_records` succeeds with
pages whose concatenation is the input in order; every page except
possibly the last has exactly `page_size` elements; every page — the
last included — has between 1 and `page_size` elements; the empty
input yields the empty page sequence (not a single empty page), and a
nonempty input yields at least one page. -/
theorem C7_paginate_pages (records : List Record) (ps : Int) (hps : 1 ≤ ps) :
    ∃ pages,
      paginate_records records ps = Except.ok pages ∧
      pages.flatten = records ∧
      (∀ p ∈ pages.dropLast, p.length = ps.toNat) ∧
      (∀ p ∈ pages, 1 ≤ p.length ∧ p.length ≤ ps.toNat) ∧
      (records = [] → pages = []) ∧
      (records ≠ [] → pages ≠ []) := by
  have hn : 1 ≤ ps.toNat := by omega
  refine ⟨chunks ps.toNat records, ?_, chunks_join hn records,
    chunks_dropLast_aux hn records.length records le_rfl,
    chunks_mem_aux hn records.length records le_rfl, ?_, ?_⟩
  · unfold paginate_records
    rw [if_neg (by omega), if_neg (by omega)]
  · intro h
    subst h
    exact chunks_nil _
  · intro h
    rw [ne_eq, chunks_eq_nil_iff hn]
    exact h

/-- C7 (witness): the theorem applied to three records with
`page_size = 2`. -/
theorem C7_witness :
    ∃ pages,
      paginate_records
          [[("a", PyVal.int 1)], [("a", PyVal.int 2)], [("a", PyVal.int 3)]] 2 =
        Except.ok pages ∧
      pages.flatten =
        [[("a", PyVal.int 1)], [("a", PyVal.int 2)], [("a", PyVal.int 3)]] ∧
      (∀ p ∈ pages.dropLast, p.length = (2 : Int).toNat) ∧
      (∀ p ∈ pages, 1 ≤ p.length ∧ p.length ≤ (2 : Int).toNat) ∧
      ([[("a", PyVal.int 1)], [("a", PyVal.int 2)], [("a", PyVal.int 3)]] =
          ([] : List Record) → pages = []) ∧
      ([[("a", PyVal.int 1)], [("a", PyVal.int 2)], [("a", PyVal.int 3)]] ≠
          ([] : List Record) → pages ≠ []) :=
  C7_paginate_pages
    [[("a", PyVal.int 1)], [("a", PyVal.int 2)], [("a", PyVal.int 3)]] 2
    (by norm_num)

/-- C8 (amended): `merge_records` excludes every record whose identity
value is falsy or absent, but it does so **silently**: its result is
the bare list of surviving records — there is no warning list anywhere
in its interface (see the counterexample) — and the rest of the batch
is still processed (every record with a truthy identity value is
represented in the output by a record of its group). -/
theorem C8_merge_silent_exclusion (records : List Record) (key : String) :
    (∀ r ∈ records, truthy (pyGet r key) = false →
      r ∉ merge_records records key) ∧
    (∀ r ∈ records, truthy (pyGet r key) = true →
      ∃ w ∈ merge_records records key, pyGet w key = pyGet r key) := by
  constructor
  · intro r _ hfalsy hmem
    have := merge_records_mem_truthy hmem
    rw [hfalsy] at this
    cases this
  · intro r hr htruthy
    have hproj := findKey_foldl key (pyGet r key) htruthy records []
    have hrf : r ∈ records.filter (fun x => decide (pyGet x key = pyGet r key)) :=
      List.mem_filter.mpr ⟨hr, by simp⟩
    cases hfil : records.filter (fun x => decide (pyGet x key = pyGet r key)) with
    | nil =>
        rw [hfil] at hrf
        simp at hrf
    | cons r₀ rs =>
        rw [hfil] at hproj
        simp only [List.foldl_cons, findKey] at hproj
        rw [optionFold_some] at hproj
        refine ⟨rs.foldl keepRecent r₀, snd_mem_of_findKey hproj, ?_⟩
        have hmem := mem_of_findKey hproj
        have hinv := foldl_merge_inv key records [] (by simp) _ hmem
        exact hinv.1.symm

/-- C8 (counterexample): a batch whose only record lacks the identity
field.  `merge_records` returns the bare empty record list: the record
was dropped and, the return value being only `list(merged.values())`,
no warning list is accumulated or returned anywhere. -/
theorem C8_counterexample :
    merge_records [[("name", PyVal.str "x")]] "id" = [] := by decide

/-- C8 (witness): the amended theorem applied to a concrete batch. -/
theorem C8_witness :
    [("name", PyVal.str "x")] ∉
      merge_records [[("name", PyVal.str "x")], [("id", PyVal.str "1")]] "id" :=
  (C8_merge_silent_exclusion
      [[("name", PyVal.str "x")], [("id", PyVal.str "1")]] "id").1
    [("name", PyVal.str "x")] (by decide) (by decide)

/-- C9 (amended): `parse_fulcrum_date` returns `None` for the empty
string **without** any warning (the falsy check returns before the
warning branch); for every non-empty value that neither the ISO parser
(on the `Z`-replaced string) nor the float parser accepts, it returns
`None` with a warning and raises nothing; and every value the ISO
parser accepts — including values with no trailing zone marker —
parses successfully without a warning. -/
theorem C9_parse_behaviour :
    parse_fulcrum_date "" = (Option.none, false) ∧
    (∀ s : String, s ≠ "" → fromisoformat (replaceZ s) = Option.none →
      pyFloat s = Option.none →
      parse_fulcrum_date s = (Option.none, true)) ∧
    (∀ (s : String) (t : Int), s ≠ "" → fromisoformat (replaceZ s) = some t →
      parse_fulcrum_date s = (some ((t : Int) : Rat), false)) := by
  refine ⟨rfl, ?_, ?_⟩
  · intro s hne hiso hfloat
    unfold parse_fulcrum_date
    rw [if_neg hne, hiso, hfloat]
  · intro s t hne hiso
    unfold parse_fulcrum_date
    rw [if_neg hne, hiso]

/-- C9 (counterexample): the empty string matches neither accepted
format, yet parsing it yields `None` with **no** warning — refuting
"every value matching neither format yields Null with a non-fatal
warning"; and `2024-01-01T10:00:00`, which has no trailing zone marker,
is accepted — refuting "accepts exactly two formats" with a required
zone marker. -/
theorem C9_counterexample :
    parse_fulcrum_date "" = (Option.none, false) ∧
    parse_fulcrum_date "2024-01-01T10:00:00" =
      (some ((1704103200 : Int) : Rat), false) := by
  refine ⟨by decide, by decide⟩

/-- C9 (witness): the amended theorem applied to a concrete unmatched
value. -/
theorem C9_witness : parse_fulcrum_date "not-a-date" = (Option.none, true) :=
  C9_parse_behaviour.2.1 "not-a-date" (by decide) (by decide) (by decide)

/-- C10: every record surviving `merge_records` has a truthy identity
value; consequently a record whose identity value is falsy — absent,
`None`, the empty string, zero, `False` or an empty container — never
appears in the output (it is silently skipped by `if not key:
continue`), and in particular two records whose identity values are the
empty string are both dropped rather than merged with each other. -/
theorem C10_merge_drops_falsy_ids (records : List Record) (key : String) :
    (∀ w ∈ merge_records records key, truthy (pyGet w key) = true) ∧
    (∀ r ∈ records, truthy (pyGet r key) = false →
      r ∉ merge_records records key) ∧
    (∀ r ∈ records, pyGet r key = PyVal.str "" →
      r ∉ merge_records records key) := by
  refine ⟨fun w hw => merge_records_mem_truthy hw, ?_, ?_⟩
  · intro r _ hfalsy hmem
    have := merge_records_mem_truthy hmem
    rw [hfalsy] at this
    cases this
  · intro r _ hempty hmem
    have := merge_records_mem_truthy hmem
    rw [hempty] at this
    simp [truthy] at this

/-- C10 (witness): the theorem applied to a batch of two empty-string
identity records: the first is dropped (and the full output is empty,
so neither was merged into anything). -/
theorem C10_witness :
    [("id", PyVal.str ""), ("v", PyVal.int 1)] ∉
      merge_records
        [[("id", PyVal.str ""), ("v", PyVal.int 1)],
         [("id", PyVal.str ""), ("v", PyVal.int 2)]] "id" :=
  (C10_merge_drops_falsy_ids
      [[("id", PyVal.str ""), ("v", PyVal.int 1)],
       [("id", PyVal.str ""), ("v", PyVal.int 2)]] "id").2.2
    [("id", PyVal.str ""), ("v", PyVal.int 1)] (by decide) (by decide)
